import Mathlib

/-!
Formal model of the `type-pool` Rust crate (`src/lib.rs`).

The crate provides `TypePool<T>`, a pool of `T` values stored in a boxed
`HashMap<usize, T>`, together with `PoolKey<T>` handles stamped with the pool's
identity.  We embed the data model and the operations shallowly:

* the `HashMap<usize, T>` is a `Finmap` from `Nat` to `T`; slot ids are `Nat`s
  and the `usize` bound `2 ^ 64` is tracked by the well-formedness predicate
  `TypePool.WF`;
* the pool identity (in Rust the address `&mut self.pool as *const _ as usize`,
  stored in the key's `NonZeroUsize` field and compared by `owns_key`) is
  abstracted to a `Nat` field fixed at construction; distinct simultaneously
  live pools have distinct addresses, hence distinct identities;
* panics (`assert!`, `assert_ne!`, `expect`, `unwrap`) are modelled by `none`
  (or `Except.error` carrying the pool state at the panic point, for `insert`);
* a mutable reference into the pool's storage is modelled by the slot id it
  points at; reading and writing through such a reference are `readRef` and
  `writeRef`.
-/

/-- Number of distinct values of the 64-bit `usize` type. -/
def USIZE_SIZE : Nat := 2 ^ 64

/-- Largest value of the 64-bit `usize` type (`usize::MAX`). -/
def USIZE_MAX : Nat := USIZE_SIZE - 1

/-- Model of `PoolKey<T>(usize, NonZeroUsize, PhantomData<T>)`.  `slot_id` is the
tuple field `.0`, `pool_identity` the field `.1` (the issuing pool's address).
`T` is a phantom parameter mirroring `PhantomData<T>`. -/
structure PoolKey (T : Type) where
  slot_id : Nat
  pool_identity : Nat
deriving DecidableEq

/-- Model of the `PartialEq` impl for `PoolKey`:
`self.0 == rhs.0 && self.1 == rhs.1`. -/
def PoolKey.eqImpl {T : Type} (a b : PoolKey T) : Bool :=
  a.slot_id == b.slot_id && a.pool_identity == b.pool_identity

/-- Model of the `Hash` impl for `PoolKey`: the body is `self.0.hash(hasher)`,
so the data fed to the hasher is the slot id alone. -/
def PoolKey.hashData {T : Type} (k : PoolKey T) : List Nat := [k.slot_id]

/-- Model of `TypePool<T> { pool: Box<HashMap<usize, T>>, next_id: usize }`.
The extra `identity` field models the pool's address, which in Rust is implicit
in where the value lives; it is fixed at construction and never changes. -/
structure TypePool (T : Type) where
  pool : Finmap fun _ : Nat => T
  next_id : Nat
  identity : Nat
deriving DecidableEq

/-- Model of `TypePool::new` (the identity is the fresh pool's address,
abstracted to a parameter). -/
def TypePool.new (T : Type) (identity : Nat) : TypePool T :=
  ⟨∅, 0, identity⟩

/-- Model of `TypePool::owns_key`: `key.1.get() == self as *const Self as usize`. -/
def TypePool.owns_key {T : Type} (p : TypePool T) (k : PoolKey T) : Bool :=
  k.pool_identity == p.identity

/-- Model of `TypePool::contains_key`:
`self.owns_key(key) && self.pool.contains_key(&key.0)`. -/
def TypePool.contains_key {T : Type} (p : TypePool T) (k : PoolKey T) : Bool :=
  p.owns_key k && (p.pool.lookup k.slot_id).isSome

/-- Model of `TypePool::len`: `self.pool.len()`. -/
def TypePool.len {T : Type} (p : TypePool T) : Nat :=
  p.pool.keys.card

/-- The slot ids scanned by `get_next_id`, in order: the iterator
`(self.next_id..=usize::MAX).chain(0..self.next_id)`. -/
def candidateIds (hint : Nat) : List Nat :=
  List.range' hint (USIZE_SIZE - hint) ++ List.range hint

/-- Model of the inner fn `get_next_id`.  Returns the found id together with the
pool after the write `self.next_id = id + 1` (with `usize` wraparound); `none`
models the `unwrap` panic when every candidate id is occupied, which happens
before `next_id` is written. -/
def TypePool.get_next_id {T : Type} (p : TypePool T) : Option (Nat × TypePool T) :=
  match (candidateIds p.next_id).find? (fun k => !(p.pool.lookup k).isSome) with
  | none => none
  | some id => some (id, { p with next_id := (id + 1) % USIZE_SIZE })

/-- Model of `TypePool::insert`.  `Except.error` models a panic and carries the
pool state at the panic point: the `assert_ne!(self.len(), usize::MAX)` capacity
check and the `unwrap` inside `get_next_id` both fire before any mutation, so
the carried state is the input pool.  On success the returned key is
`PoolKey(id, identity, PhantomData)`. -/
def TypePool.insert {T : Type} (p : TypePool T) (v : T) :
    Except (TypePool T) (PoolKey T × TypePool T) :=
  if p.len = USIZE_MAX then Except.error p
  else
    match p.get_next_id with
    | none => Except.error p
    | some (id, p1) => Except.ok (⟨id, p.identity⟩, { p1 with pool := p1.pool.insert id v })

/-- Model of `TypePool::remove`: `none` models the ownership `assert!` panic;
otherwise the result of `self.pool.remove(&key.0)` is returned with the updated
pool. -/
def TypePool.remove {T : Type} (p : TypePool T) (k : PoolKey T) :
    Option (Option T × TypePool T) :=
  if p.owns_key k then some (p.pool.lookup k.slot_id, { p with pool := p.pool.erase k.slot_id })
  else none

/-- Model of the `Index` impl (`&pool[key]`): `none` models a panic, from the
ownership `assert!` or from the `expect` on a missing slot. -/
def TypePool.index {T : Type} (p : TypePool T) (k : PoolKey T) : Option T :=
  if p.owns_key k then p.pool.lookup k.slot_id else none

/-- Model of a write through the `IndexMut` impl (`pool[key] = v`): `none`
models a panic, from the ownership `assert!` or from the `expect` on a missing
slot. -/
def TypePool.index_set {T : Type} (p : TypePool T) (k : PoolKey T) (v : T) :
    Option (TypePool T) :=
  if p.owns_key k && (p.pool.lookup k.slot_id).isSome then
    some { p with pool := p.pool.insert k.slot_id v }
  else none

/-- Reading through a mutable reference into pool storage (a reference is
modelled by the slot id it points at). -/
def readRef {T : Type} (p : TypePool T) (r : Nat) : Option T :=
  p.pool.lookup r

/-- Writing through a mutable reference into pool storage. -/
def writeRef {T : Type} (p : TypePool T) (r : Nat) (v : T) : TypePool T :=
  { p with pool := p.pool.insert r v }

/-- The references produced by `get_set` for a key set, modelled by the slot
ids they point at.  The `HashSet` iteration order is unspecified and the output
`Box<[&mut T]>` is used as an unordered collection of distinct references, so
the model collects the slot ids into a `Finset`. -/
def getSetRefs {T : Type} (keys : Finset (PoolKey T)) : Finset Nat :=
  keys.image PoolKey.slot_id

/-- Model of `TypePool::get_set`: for each key of the input `HashSet` (modelled
by a `Finset`) it takes `&mut self[key]` through the `IndexMut` impl, which
panics unless `contains_key` holds; the collected references are modelled by
their slot ids.  The pool after the call is returned alongside (the borrow
mutates nothing). -/
def TypePool.get_set {T : Type} (p : TypePool T) (keys : Finset (PoolKey T)) :
    Option (Finset Nat × TypePool T) :=
  if ∀ k ∈ keys, p.contains_key k = true then
    some (getSetRefs keys, p)
  else none

/-- A sequence of `insert` calls: inserts the values in order, collecting the
issued keys; `none` if any insert panics. -/
def TypePool.insertAll {T : Type} (p : TypePool T) : List T → Option (List (PoolKey T) × TypePool T)
  | [] => some ([], p)
  | v :: vs =>
    match p.insert v with
    | Except.error _ => none
    | Except.ok (k, p1) =>
      match p1.insertAll vs with
      | none => none
      | some (ks, p2) => some (k :: ks, p2)

/-- States reachable by the Rust program: `next_id` is a `usize`, every slot id
in the map is a `usize`, and the map holds at most `usize::MAX` entries (the
capacity assert in `insert` fires before the pool could grow past that). -/
def TypePool.WF {T : Type} (p : TypePool T) : Prop :=
  p.next_id < USIZE_SIZE ∧ (∀ k ∈ p.pool.keys, k < USIZE_SIZE) ∧ p.len ≤ USIZE_MAX

instance {T : Type} (p : TypePool T) : Decidable p.WF := by
  unfold TypePool.WF
  infer_instance

/-- A fresh empty pool over `Nat` whose identity is `1`. -/
def emptyPool : TypePool Nat := TypePool.new Nat 1

/-- A second, simultaneously live pool, so with a distinct identity `2`. -/
def otherPool : TypePool Nat := TypePool.new Nat 2

/-- The pool obtained from `emptyPool` by inserting `4` and then `2`
(the first half of the scenario of the spec): values `4` at slot `0` and
`2` at slot `1`, hint `2`. -/
def samplePool : TypePool Nat := ⟨Finmap.insert 1 2 (Finmap.insert 0 4 ∅), 2, 1⟩

/-- The keys issued by those two inserts, collected into a set. -/
def sampleKeys : Finset (PoolKey Nat) := {⟨0, 1⟩, ⟨1, 1⟩}

/-- The pool obtained from `samplePool` by additionally inserting `7`
(stored at slot `2`, hint advanced to `3`). -/
def samplePoolIns : TypePool Nat :=
  ⟨Finmap.insert 2 7 (Finmap.insert 1 2 (Finmap.insert 0 4 ∅)), 3, 1⟩

/-- The pool obtained from `samplePool` by removing the key of slot `0`. -/
def samplePoolRem : TypePool Nat :=
  ⟨Finmap.erase 0 (Finmap.insert 1 2 (Finmap.insert 0 4 ∅)), 2, 1⟩

/-- The pool obtained from `emptyPool` by inserting the single value `5`. -/
def insertedPool : TypePool Nat := ⟨Finmap.insert 0 5 ∅, 1, 1⟩

/-! ## Basic lemmas about the model -/

theorem USIZE_SIZE_pos : 0 < USIZE_SIZE := by decide

theorem USIZE_MAX_add_one : USIZE_MAX + 1 = USIZE_SIZE := by decide

theorem owns_key_iff {T : Type} (p : TypePool T) (k : PoolKey T) :
    p.owns_key k = true ↔ k.pool_identity = p.identity := by
  simp [TypePool.owns_key]

theorem contains_key_iff {T : Type} (p : TypePool T) (k : PoolKey T) :
    p.contains_key k = true ↔
      k.pool_identity = p.identity ∧ k.slot_id ∈ p.pool := by
  simp [TypePool.contains_key, owns_key_iff, Finmap.lookup_isSome]

theorem keys_finmap_insert {T : Type} (a : Nat) (b : T) (s : Finmap fun _ : Nat => T) :
    (s.insert a b).keys = insert a s.keys := by
  ext x
  simp [Finmap.mem_keys, Finmap.mem_insert]

theorem mem_candidateIds {hint : Nat} (hhint : hint < USIZE_SIZE) (id : Nat) :
    id ∈ candidateIds hint ↔ id < USIZE_SIZE := by
  unfold candidateIds
  simp only [List.mem_append, List.mem_range'_1, List.mem_range]
  omega

theorem length_candidateIds {hint : Nat} (hhint : hint < USIZE_SIZE) :
    (candidateIds hint).length = USIZE_SIZE := by
  unfold candidateIds
  simp only [List.length_append, List.length_range', List.length_range]
  omega

theorem candidateIds_get {hint n : Nat} (hhint : hint < USIZE_SIZE)
    (hn : n < (candidateIds hint).length) :
    (candidateIds hint).get ⟨n, hn⟩ = (hint + n) % USIZE_SIZE := by
  have hlen : (candidateIds hint).length = USIZE_SIZE := length_candidateIds hhint
  have hnS : n < USIZE_SIZE := hlen ▸ hn
  have hq : (candidateIds hint)[n]? = some ((hint + n) % USIZE_SIZE) := by
    unfold candidateIds
    rcases Nat.lt_or_ge n (USIZE_SIZE - hint) with h | h
    · rw [List.getElem?_append_left (by simp only [List.length_range']; omega),
        List.getElem?_range' _ _ h]
      have hlt : hint + n < USIZE_SIZE := by omega
      rw [Nat.mod_eq_of_lt hlt]
      norm_num
    · rw [List.getElem?_append_right (by simp only [List.length_range']; omega),
        List.length_range', List.getElem?_range (by omega)]
      have h1 : USIZE_SIZE ≤ hint + n := by omega
      have hmod : (hint + n) % USIZE_SIZE = hint + n - USIZE_SIZE := by
        rw [Nat.mod_eq_sub_mod h1, Nat.mod_eq_of_lt (by omega)]
      rw [hmod]
      have heq : n - (USIZE_SIZE - hint) = hint + n - USIZE_SIZE := by omega
      rw [heq]
  have h2 := List.getElem?_eq_getElem hn
  rw [hq] at h2
  rw [List.get_eq_getElem]
  exact (Option.some_inj.1 h2).symm

theorem exists_free_id {T : Type} (p : TypePool T) (hlen : p.len < USIZE_SIZE) :
    ∃ id, id < USIZE_SIZE ∧ id ∉ p.pool := by
  by_contra hcon
  push_neg at hcon
  have hsub : Finset.range USIZE_SIZE ⊆ p.pool.keys := by
    intro x hx
    exact Finmap.mem_keys.2 (hcon x (Finset.mem_range.1 hx))
  have hcard := Finset.card_le_card hsub
  rw [Finset.card_range] at hcard
  unfold TypePool.len at hlen
  omega

theorem find?_first {α : Type} (q : α → Bool) :
    ∀ (l : List α) (a : α), l.find? q = some a →
      ∃ n, ∃ hn : n < l.length, l.get ⟨n, hn⟩ = a ∧ q a = true ∧
        ∀ m, (hm : m < l.length) → m < n → q (l.get ⟨m, hm⟩) = false
  | [], a, h => by simp at h
  | x :: xs, a, h => by
    rw [List.find?_cons] at h
    cases hqx : q x with
    | true =>
      rw [hqx] at h
      simp only [Option.some.injEq] at h
      subst h
      exact ⟨0, by simp, rfl, hqx, fun m hm hm0 => absurd hm0 (by omega)⟩
    | false =>
      rw [hqx] at h
      obtain ⟨n, hn, hget, hqa, hmin⟩ := find?_first q xs a h
      refine ⟨n + 1, by simpa using Nat.succ_lt_succ hn, by simpa using hget, hqa, ?_⟩
      intro m hm hmn
      cases m with
      | zero => simpa using hqx
      | succ m =>
        have hm2 : m < xs.length := by simp at hm; omega
        have := hmin m hm2 (by omega)
        simpa using this

/-! ## Lemmas about `get_next_id` and `insert` -/

theorem get_next_id_eq_some {T : Type} {p : TypePool T} {id : Nat} {p1 : TypePool T}
    (h : p.get_next_id = some (id, p1)) :
    id ∉ p.pool ∧ p1.pool = p.pool ∧ p1.identity = p.identity ∧
      p1.next_id = (id + 1) % USIZE_SIZE ∧
      (candidateIds p.next_id).find? (fun j => !(p.pool.lookup j).isSome) = some id := by
  unfold TypePool.get_next_id at h
  cases hf : (candidateIds p.next_id).find? (fun j => !(p.pool.lookup j).isSome) with
  | none => rw [hf] at h; exact absurd h (by simp)
  | some j =>
    rw [hf] at h
    simp only [Option.some.injEq, Prod.mk.injEq] at h
    obtain ⟨hj, hp1⟩ := h
    have hjm := List.find?_some hf
    rw [hj] at hjm hp1
    refine ⟨?_, ?_, ?_, ?_, by rw [hj]⟩
    · rw [← Finmap.lookup_eq_none]
      simp only [Bool.not_eq_true'] at hjm
      exact Option.not_isSome_iff_eq_none.1 (by simp [hjm])
    · rw [← hp1]
    · rw [← hp1]
    · rw [← hp1]

theorem get_next_id_isSome {T : Type} (p : TypePool T) (hhint : p.next_id < USIZE_SIZE)
    (hlen : p.len < USIZE_SIZE) :
    p.get_next_id.isSome = true := by
  obtain ⟨id, hid, hfree⟩ := exists_free_id p hlen
  have hf : ((candidateIds p.next_id).find? (fun j => !(p.pool.lookup j).isSome)).isSome = true := by
    refine List.find?_isSome.2 ⟨id, (mem_candidateIds hhint id).2 hid, ?_⟩
    simp [Finmap.lookup_eq_none.2 hfree]
  unfold TypePool.get_next_id
  cases hc : (candidateIds p.next_id).find? (fun j => !(p.pool.lookup j).isSome) with
  | none => rw [hc] at hf; simp at hf
  | some j => simp

theorem insert_ok_spec {T : Type} {p : TypePool T} {v : T} {k : PoolKey T} {p1 : TypePool T}
    (h : p.insert v = Except.ok (k, p1)) :
    k.pool_identity = p.identity ∧ p1.identity = p.identity ∧ k.slot_id ∉ p.pool ∧
      p1.pool = p.pool.insert k.slot_id v ∧ p1.next_id = (k.slot_id + 1) % USIZE_SIZE ∧
      p.len ≠ USIZE_MAX ∧
      (candidateIds p.next_id).find? (fun j => !(p.pool.lookup j).isSome) = some k.slot_id := by
  unfold TypePool.insert at h
  split at h
  · exact absurd h (by simp)
  · rename_i hlen
    cases hg : p.get_next_id with
    | none => rw [hg] at h; exact absurd h (by simp)
    | some pr =>
      obtain ⟨id, p2⟩ := pr
      rw [hg] at h
      simp only [Except.ok.injEq, Prod.mk.injEq] at h
      obtain ⟨hk, hp1⟩ := h
      obtain ⟨hfree, hpool, hident, hnext, hfind⟩ := get_next_id_eq_some hg
      subst hk
      subst hp1
      exact ⟨rfl, hident, hfree, by rw [hpool], by simpa using hnext, hlen, hfind⟩

theorem insert_error_eq {T : Type} {p : TypePool T} {v : T} {e : TypePool T}
    (h : p.insert v = Except.error e) : e = p := by
  unfold TypePool.insert at h
  split at h
  · simpa using h.symm
  · cases hg : p.get_next_id with
    | none => rw [hg] at h; simpa using h.symm
    | some pr => obtain ⟨id, p2⟩ := pr; rw [hg] at h; exact absurd h (by simp)

theorem insert_isOk {T : Type} (p : TypePool T) (v : T) (hhint : p.next_id < USIZE_SIZE)
    (hlen : p.len < USIZE_MAX) : (p.insert v).isOk = true := by
  have hlt : p.len < USIZE_SIZE := by
    have := USIZE_MAX_add_one
    omega
  have hg := get_next_id_isSome p hhint hlt
  unfold TypePool.insert
  rw [if_neg (by omega)]
  cases hc : p.get_next_id with
  | none => rw [hc] at hg; simp at hg
  | some pr => obtain ⟨id, p2⟩ := pr; simp [Except.isOk, Except.toBool]

theorem insert_WF {T : Type} {p : TypePool T} {v : T} {k : PoolKey T} {p1 : TypePool T}
    (hwf : p.WF) (h : p.insert v = Except.ok (k, p1)) :
    p1.WF ∧ p1.len = p.len + 1 ∧ k.slot_id < USIZE_SIZE := by
  obtain ⟨hkid, hident, hfree, hpool, hnext, hlen, hfind⟩ := insert_ok_spec h
  obtain ⟨hwf1, hwf2, hwf3⟩ := hwf
  have hmem := List.mem_of_find?_eq_some hfind
  have hslot : k.slot_id < USIZE_SIZE := (mem_candidateIds hwf1 k.slot_id).1 hmem
  have hlen1 : p1.len = p.len + 1 := by
    unfold TypePool.len
    rw [hpool, keys_finmap_insert,
      Finset.card_insert_of_not_mem (fun hc => hfree (Finmap.mem_keys.1 hc))]
  refine ⟨⟨?_, ?_, ?_⟩, hlen1, hslot⟩
  · rw [hnext]
    exact Nat.mod_lt _ USIZE_SIZE_pos
  · intro j hj
    rw [hpool, keys_finmap_insert, Finset.mem_insert] at hj
    rcases hj with hj | hj
    · rw [hj]; exact hslot
    · exact hwf2 j hj
  · omega

/-! ## Lemmas about sequences of inserts -/

theorem insertAll_spec {T : Type} (vs : List T) :
    ∀ (p : TypePool T) (ks : List (PoolKey T)) (p2 : TypePool T),
      p.WF → p.insertAll vs = some (ks, p2) →
      p2.WF ∧ p2.identity = p.identity ∧
        (∀ j, j ∈ p.pool → p2.pool.lookup j = p.pool.lookup j) ∧
        (∀ j, j ∈ p.pool → j ∈ p2.pool) ∧
        (∀ k2 ∈ ks, k2.pool_identity = p.identity ∧ k2.slot_id ∉ p.pool) ∧
        ks.Nodup ∧ ks.length = vs.length ∧
        (∀ i, (hi : i < ks.length) → (hv : i < vs.length) →
          p2.index (ks.get ⟨i, hi⟩) = some (vs.get ⟨i, hv⟩)) := by
  induction vs with
  | nil =>
    intro p ks p2 hwf h
    unfold TypePool.insertAll at h
    simp only [Option.some.injEq, Prod.mk.injEq] at h
    obtain ⟨hks, hp2⟩ := h
    subst hks
    subst hp2
    refine ⟨hwf, rfl, fun j _ => rfl, fun j hj => hj, by simp, by simp, by simp, ?_⟩
    intro i hi
    simp at hi
  | cons v vs ih =>
    intro p ks p2 hwf h
    unfold TypePool.insertAll at h
    cases hins : p.insert v with
    | error e => simp only [hins] at h; exact absurd h (by simp)
    | ok pr =>
      obtain ⟨k, p1⟩ := pr
      simp only [hins] at h
      cases hrest : p1.insertAll vs with
      | none => simp only [hrest] at h; exact absurd h (by simp)
      | some pr2 =>
        obtain ⟨ks1, p3⟩ := pr2
        simp only [hrest] at h
        simp only [Option.some.injEq, Prod.mk.injEq] at h
        obtain ⟨hks, hp3⟩ := h
        have hp2 : p2 = p3 := hp3.symm
        subst hp2
        subst hks
        obtain ⟨hkid, hident, hfree, hpool, hnext, hlenmax, hfind⟩ := insert_ok_spec hins
        obtain ⟨hwf1, hlen1, hslot⟩ := insert_WF hwf hins
        obtain ⟨ih1, ih2, ih3, ih4, ih5, ih6, ih7, ih8⟩ := ih p1 ks1 p2 hwf1 hrest
        have hmem1 : k.slot_id ∈ p1.pool := by
          rw [hpool]
          exact Finmap.mem_insert.2 (Or.inl rfl)
        have hlook1 : p1.pool.lookup k.slot_id = some v := by
          rw [hpool]
          exact Finmap.lookup_insert p.pool
        refine ⟨ih1, by rw [ih2, hident], ?_, ?_, ?_, ?_, by simpa using ih7, ?_⟩
        · intro j hj
          have hne : j ≠ k.slot_id := fun hc => hfree (hc ▸ hj)
          have hfr : p1.pool.lookup j = p.pool.lookup j := by
            rw [hpool]
            exact Finmap.lookup_insert_of_ne p.pool hne
          rw [← hfr]
          apply ih3
          rw [hpool]
          exact Finmap.mem_insert.2 (Or.inr hj)
        · intro j hj
          apply ih4
          rw [hpool]
          exact Finmap.mem_insert.2 (Or.inr hj)
        · intro k2 hk2
          rcases List.mem_cons.1 hk2 with hk2 | hk2
          · exact hk2 ▸ ⟨hkid, hfree⟩
          · obtain ⟨ha, hb⟩ := ih5 k2 hk2
            refine ⟨by rw [ha, hident], fun hc => ?_⟩
            have hm : k2.slot_id ∈ p1.pool := by
              rw [hpool]
              exact Finmap.mem_insert.2 (Or.inr hc)
            exact hb hm
        · refine List.nodup_cons.2 ⟨fun hc => ?_, ih6⟩
          obtain ⟨_, hb⟩ := ih5 k hc
          exact hb hmem1
        · intro i hi hv
          cases i with
          | zero =>
            simp only [List.get]
            have howns : p2.owns_key k = true := by
              rw [owns_key_iff, ih2, hident, hkid]
            unfold TypePool.index
            rw [howns]
            simp only [if_true]
            rw [ih3 k.slot_id hmem1, hlook1]
          | succ i =>
            have hi1 : i < ks1.length := by simpa using hi
            have hv1 : i < vs.length := by simpa using hv
            simpa using ih8 i hi1 hv1

/-! ## Lemmas about key sets -/

theorem contains_inj {T : Type} {p : TypePool T} {k1 k2 : PoolKey T}
    (h1 : p.contains_key k1 = true) (h2 : p.contains_key k2 = true)
    (hs : k1.slot_id = k2.slot_id) : k1 = k2 := by
  obtain ⟨i1, _⟩ := (contains_key_iff p k1).1 h1
  obtain ⟨i2, _⟩ := (contains_key_iff p k2).1 h2
  cases k1
  cases k2
  simp_all

theorem getSetRefs_card {T : Type} {p : TypePool T} {keys : Finset (PoolKey T)}
    (hall : ∀ k2 ∈ keys, p.contains_key k2 = true) :
    (getSetRefs keys).card = keys.card := by
  unfold getSetRefs
  apply Finset.card_image_of_injOn
  intro a ha b hb hab
  exact contains_inj (hall a ha) (hall b hb) hab

/-! ## The claims -/

/-- C1: for a pool and a set of keys that all satisfy `contains_key`, `get_set`
succeeds and returns exactly one reference per key — `keys.card` pairwise
distinct references, among them the one for any member `k` — each referencing
the value its key identifies (reading through `k`'s reference agrees with
indexing by `k`, which succeeds); and on any key set containing a key that
fails `contains_key`, `get_set` panics rather than skipping it. -/
theorem get_set_one_ref_per_key {T : Type} (p : TypePool T) (keys q : Finset (PoolKey T))
    (k k3 : PoolKey T) (hk : k ∈ keys)
    (hall : ∀ k2 ∈ keys, p.contains_key k2 = true)
    (hk3 : k3 ∈ q) (hbad : p.contains_key k3 = false) :
    p.get_set keys = some (getSetRefs keys, p) ∧
    (getSetRefs keys).card = keys.card ∧
    k.slot_id ∈ getSetRefs keys ∧
    readRef p k.slot_id = p.index k ∧
    (p.index k).isSome = true ∧
    p.get_set q = none := by
  obtain ⟨hid, hmem⟩ := (contains_key_iff p k).1 (hall k hk)
  have howns : p.owns_key k = true := (owns_key_iff p k).2 hid
  have hnall : ¬ ∀ k2 ∈ q, p.contains_key k2 = true := by
    intro hf
    have hc := hf k3 hk3
    rw [hbad] at hc
    exact Bool.false_ne_true hc
  refine ⟨by unfold TypePool.get_set; rw [if_pos hall], getSetRefs_card hall,
    Finset.mem_image_of_mem _ hk, ?_, ?_, by unfold TypePool.get_set; rw [if_neg hnall]⟩
  · unfold readRef TypePool.index
    rw [if_pos howns]
  · unfold TypePool.index
    rw [if_pos howns]
    exact Finmap.lookup_isSome.2 hmem

/-- C2: for a set of at least two keys, all valid in one pool, `get_set`
returns as many references as there are keys; writing a value through the
reference of one key does not change the value read through the reference of
any other key; and the call leaves the pool (its slot-id-to-value mapping,
hint and identity) unchanged. -/
theorem get_set_disjoint_refs {T : Type} (p : TypePool T) (keys : Finset (PoolKey T))
    (k1 k2 : PoolKey T) (v : T) (refs : Finset Nat) (p2 : TypePool T)
    (hN : 2 ≤ keys.card) (h1 : k1 ∈ keys) (h2 : k2 ∈ keys) (hne : k1 ≠ k2)
    (hall : ∀ k3 ∈ keys, p.contains_key k3 = true)
    (hgs : p.get_set keys = some (refs, p2)) :
    refs.card = keys.card ∧
    readRef (writeRef p k1.slot_id v) k2.slot_id = readRef p k2.slot_id ∧
    p2 = p := by
  have hgs2 : p.get_set keys = some (getSetRefs keys, p) := by
    unfold TypePool.get_set
    rw [if_pos hall]
  rw [hgs2] at hgs
  simp only [Option.some.injEq, Prod.mk.injEq] at hgs
  obtain ⟨hrefs, hp2⟩ := hgs
  have hne2 : k2.slot_id ≠ k1.slot_id := by
    intro hc
    exact hne (contains_inj (hall k1 h1) (hall k2 h2) hc.symm)
  refine ⟨?_, ?_, hp2.symm⟩
  · rw [← hrefs]
    exact getSetRefs_card hall
  · unfold readRef writeRef
    exact Finmap.lookup_insert_of_ne p.pool hne2

/-- C3: a key issued by pool `A` (by `insert`) never satisfies `owns_key` for a
simultaneously live distinct pool `B` (distinct pools live at distinct
addresses, so have distinct identities); `owns_key` is true exactly when the
key's `pool_identity` equals the queried pool's identity; and it does not
depend on slot presence — two pools with equal identity but arbitrary storage
agree on `owns_key`. -/
theorem owns_key_identity_scoped {T : Type} (A B A2 C D : TypePool T) (v : T)
    (k k2 : PoolKey T)
    (hAB : A.identity ≠ B.identity) (h : A.insert v = Except.ok (k, A2))
    (hCD : C.identity = D.identity) :
    B.owns_key k = false ∧
    (B.owns_key k2 = true ↔ k2.pool_identity = B.identity) ∧
    C.owns_key k2 = D.owns_key k2 := by
  obtain ⟨hkid, -, -, -, -, -, -⟩ := insert_ok_spec h
  refine ⟨?_, owns_key_iff B k2, ?_⟩
  · unfold TypePool.owns_key
    rw [hkid]
    simp [hAB]
  · unfold TypePool.owns_key
    rw [hCD]

/-- C4 as stated is false at a concrete input: the two keys `(0, 1)` and
`(0, 2)` differ in `pool_identity` (so they compare unequal under the
`PartialEq` impl), yet they feed identical data to the hasher — the `Hash`
impl hashes `self.0` only, so the hash is not computed from both fields. -/
theorem key_hash_ignores_identity_cex :
    PoolKey.eqImpl (⟨0, 1⟩ : PoolKey Nat) ⟨0, 2⟩ = false ∧
    PoolKey.hashData (⟨0, 1⟩ : PoolKey Nat) = PoolKey.hashData (⟨0, 2⟩ : PoolKey Nat) := by
  decide

/-- C4 amended: key equality is defined over the pair `(slot_id,
pool_identity)` — two keys compare equal iff both fields match — while the
hash of a key is computed from the `slot_id` field only (keys with equal
`slot_id` hash identically, whatever their `pool_identity`). -/
theorem key_eq_both_fields_hash_slot_only {T : Type} (a b : PoolKey T) :
    (PoolKey.eqImpl a b = true ↔ a.slot_id = b.slot_id ∧ a.pool_identity = b.pool_identity) ∧
    PoolKey.hashData a = [a.slot_id] ∧
    (a.slot_id = b.slot_id → PoolKey.hashData a = PoolKey.hashData b) := by
  refine ⟨?_, rfl, fun hs => by simp [PoolKey.hashData, hs]⟩
  simp [PoolKey.eqImpl]

/-- C5: for a reachable pool, `insert` fails — with the capacity panic — exactly
when the pool already holds `usize::MAX` entries; a pool holding fewer entries
always inserts successfully; and a failing insert leaves the pool (hence every
existing entry) unaltered: the state carried out of the failure is the input
pool itself. -/
theorem insert_capacity_exact {T : Type} (p : TypePool T) (v : T) (e : TypePool T)
    (hwf : p.WF) :
    ((p.insert v).isOk = false ↔ p.len = USIZE_MAX) ∧
    (p.len < USIZE_MAX → (p.insert v).isOk = true) ∧
    (p.insert v = Except.error e → e = p) := by
  obtain ⟨hwf1, hwf2, hwf3⟩ := hwf
  refine ⟨⟨fun hnotok => ?_, fun hmax => ?_⟩,
    fun hlt => insert_isOk p v hwf1 hlt, fun he => insert_error_eq he⟩
  · by_contra hne
    have hlt : p.len < USIZE_MAX := by omega
    have hok := insert_isOk p v hwf1 hlt
    rw [hok] at hnotok
    exact absurd hnotok (by simp)
  · unfold TypePool.insert
    rw [if_pos hmax]
    rfl

/-- C6: on a successful `insert`, the chosen slot id is the first id free in
storage when scanning forward from `next_id` with wraparound past `usize::MAX`
to `0` (there is an offset `n` with `slot = (next_id + n) % 2^64` such that
every earlier offset hits an occupied id); the value is stored at that id, and
`next_id` becomes the found id plus one, wrapping at the `usize` boundary. -/
theorem insert_first_free_from_hint {T : Type} (p : TypePool T) (v : T) (k : PoolKey T)
    (p1 : TypePool T) (hhint : p.next_id < USIZE_SIZE)
    (h : p.insert v = Except.ok (k, p1)) :
    k.slot_id ∉ p.pool ∧
    (∃ n, n < USIZE_SIZE ∧ k.slot_id = (p.next_id + n) % USIZE_SIZE ∧
      ∀ m, m < n → ((p.next_id + m) % USIZE_SIZE) ∈ p.pool) ∧
    p1.pool.lookup k.slot_id = some v ∧
    p1.next_id = (k.slot_id + 1) % USIZE_SIZE := by
  obtain ⟨hkid, hident, hfree, hpool, hnext, hlenmax, hfind⟩ := insert_ok_spec h
  refine ⟨hfree, ?_, by rw [hpool]; exact Finmap.lookup_insert p.pool, hnext⟩
  obtain ⟨n, hn, hget, hqa, hmin⟩ := find?_first _ _ _ hfind
  have hlen := length_candidateIds hhint
  refine ⟨n, by omega, by rw [← hget, candidateIds_get hhint hn], ?_⟩
  intro m hm
  have hmlt : m < (candidateIds p.next_id).length := by omega
  have hpred := hmin m hmlt hm
  rw [candidateIds_get hhint hmlt] at hpred
  have hpred2 : (!(p.pool.lookup ((p.next_id + m) % USIZE_SIZE)).isSome) = false := hpred
  have hpred3 : (p.pool.lookup ((p.next_id + m) % USIZE_SIZE)).isSome = true := by
    simpa using hpred2
  exact Finmap.lookup_isSome.1 hpred3

/-- C7: inserting any list of values into a well-formed pool, with no
intervening remove, issues pairwise distinct keys, one per value, and indexing
the final pool by the i-th issued key yields the i-th inserted value; with a
one-element list this is the round-trip `insert(v)` then read gives `v`. -/
theorem insert_sequence_distinct_roundtrip {T : Type} (p : TypePool T) (vs : List T)
    (ks : List (PoolKey T)) (p2 : TypePool T) (i : Nat)
    (hwf : p.WF) (h : p.insertAll vs = some (ks, p2))
    (hi : i < ks.length) (hv : i < vs.length) :
    ks.Nodup ∧ ks.length = vs.length ∧
    ks[i]?.bind p2.index = vs[i]? := by
  obtain ⟨-, -, -, -, -, h6, h7, h8⟩ := insertAll_spec vs p ks p2 hwf h
  refine ⟨h6, h7, ?_⟩
  rw [List.getElem?_eq_getElem hi, List.getElem?_eq_getElem hv]
  simpa using h8 i hi hv

/-- C8: `remove` panics exactly when the key is not owned by the pool; on an
owned key it returns the previously stored value when the slot is present and
an empty result when the slot is absent (the first component of the result is
the storage lookup at the key's slot id). -/
theorem remove_owned_total {T : Type} (p : TypePool T) (k : PoolKey T) :
    (p.remove k = none ↔ p.owns_key k = false) ∧
    (p.remove k).map Prod.fst =
      (if p.owns_key k then some (p.pool.lookup k.slot_id) else none) := by
  unfold TypePool.remove
  cases howns : p.owns_key k <;> simp

/-- C9: indexed read and write panic exactly when the key is not owned or its
slot is absent from storage; and after a successful `remove` of key `kq`,
`contains_key kq` is false and indexed read, indexed write and `get_set` on
`kq` all panic. -/
theorem index_requires_valid_key {T : Type} (p : TypePool T) (k : PoolKey T) (v : T)
    (q : TypePool T) (kq : PoolKey T) (r : Option T) (q2 : TypePool T)
    (hrem : q.remove kq = some (r, q2)) :
    (p.index k = none ↔ (p.owns_key k = false ∨ p.pool.lookup k.slot_id = none)) ∧
    (p.index_set k v = none ↔ (p.owns_key k = false ∨ p.pool.lookup k.slot_id = none)) ∧
    q2.contains_key kq = false ∧
    q2.index kq = none ∧
    q2.index_set kq v = none ∧
    q2.get_set {kq} = none := by
  unfold TypePool.remove at hrem
  split at hrem
  case isFalse => exact absurd hrem (by simp)
  case isTrue howns =>
    simp only [Option.some.injEq, Prod.mk.injEq] at hrem
    obtain ⟨hr, hq2⟩ := hrem
    have hcf : q2.contains_key kq = false := by
      rw [← hq2]
      simp [TypePool.contains_key, Finmap.lookup_erase, TypePool.owns_key]
    refine ⟨?_, ?_, hcf, ?_, ?_, ?_⟩
    · unfold TypePool.index
      cases howns2 : p.owns_key k <;> cases hlook : p.pool.lookup k.slot_id <;>
        simp [howns2, hlook]
    · unfold TypePool.index_set
      cases howns2 : p.owns_key k <;> cases hlook : p.pool.lookup k.slot_id <;>
        simp [howns2, hlook]
    · rw [← hq2]
      simp [TypePool.index, Finmap.lookup_erase]
    · rw [← hq2]
      simp [TypePool.index_set, Finmap.lookup_erase]
    · unfold TypePool.get_set
      rw [if_neg]
      intro hf
      have hc := hf kq (Finset.mem_singleton_self kq)
      rw [hcf] at hc
      exact Bool.false_ne_true hc

/-- C10: a successful `insert` stores its value at a previously absent slot id,
changes no other binding, and grows the length by exactly one; a successful
`remove` empties exactly the key's slot, changes no other binding, shrinks the
length by one exactly when it returns a value, and leaves the length unchanged
when it returns nothing. -/
theorem insert_remove_frame {T : Type} (p : TypePool T) (v : T) (k : PoolKey T)
    (p1 : TypePool T) (q : TypePool T) (kq : PoolKey T) (r : Option T)
    (q2 : TypePool T) (j : Nat)
    (hins : p.insert v = Except.ok (k, p1)) (hrem : q.remove kq = some (r, q2)) :
    p.pool.lookup k.slot_id = none ∧
    p1.pool.lookup k.slot_id = some v ∧
    (j ≠ k.slot_id → p1.pool.lookup j = p.pool.lookup j) ∧
    p1.len = p.len + 1 ∧
    q2.pool.lookup kq.slot_id = none ∧
    (j ≠ kq.slot_id → q2.pool.lookup j = q.pool.lookup j) ∧
    (r.isSome = true → q.len = q2.len + 1) ∧
    (r = none → q2.len = q.len) := by
  obtain ⟨hkid, hident, hfree, hpool, hnext, hlenmax, hfind⟩ := insert_ok_spec hins
  unfold TypePool.remove at hrem
  split at hrem
  case isFalse => exact absurd hrem (by simp)
  case isTrue howns =>
    simp only [Option.some.injEq, Prod.mk.injEq] at hrem
    obtain ⟨hr, hq2⟩ := hrem
    refine ⟨Finmap.lookup_eq_none.2 hfree,
      by rw [hpool]; exact Finmap.lookup_insert p.pool,
      fun hj => by rw [hpool]; exact Finmap.lookup_insert_of_ne p.pool hj,
      ?_, ?_, ?_, ?_, ?_⟩
    · unfold TypePool.len
      rw [hpool, keys_finmap_insert,
        Finset.card_insert_of_not_mem (fun hc => hfree (Finmap.mem_keys.1 hc))]
    · rw [← hq2]
      exact Finmap.lookup_erase kq.slot_id q.pool
    · intro hj
      rw [← hq2]
      exact Finmap.lookup_erase_ne hj
    · intro hsome
      rw [← hr] at hsome
      have hmemk : kq.slot_id ∈ q.pool := Finmap.lookup_isSome.1 hsome
      have hmemkeys : kq.slot_id ∈ q.pool.keys := Finmap.mem_keys.2 hmemk
      have hpos : 0 < q.pool.keys.card := Finset.card_pos.2 ⟨_, hmemkeys⟩
      unfold TypePool.len
      rw [← hq2]
      show q.pool.keys.card = (q.pool.erase kq.slot_id).keys.card + 1
      rw [Finmap.keys_erase, Finset.card_erase_of_mem hmemkeys]
      omega
    · intro hnone
      rw [hnone] at hr
      have hnotmem : kq.slot_id ∉ q.pool := Finmap.lookup_eq_none.1 hr
      unfold TypePool.len
      rw [← hq2]
      show (q.pool.erase kq.slot_id).keys.card = q.pool.keys.card
      rw [Finmap.keys_erase,
        Finset.erase_eq_of_not_mem (fun hc => hnotmem (Finmap.mem_keys.1 hc))]

/-! ## Witnesses: the claims applied at concrete inputs -/

theorem get_set_one_ref_per_key_witness :
    samplePool.get_set sampleKeys = some (getSetRefs sampleKeys, samplePool) ∧
    (getSetRefs sampleKeys).card = sampleKeys.card ∧
    (⟨0, 1⟩ : PoolKey Nat).slot_id ∈ getSetRefs sampleKeys ∧
    readRef samplePool (⟨0, 1⟩ : PoolKey Nat).slot_id = samplePool.index ⟨0, 1⟩ ∧
    (samplePool.index ⟨0, 1⟩).isSome = true ∧
    samplePool.get_set {⟨5, 1⟩} = none :=
  get_set_one_ref_per_key samplePool sampleKeys {⟨5, 1⟩} ⟨0, 1⟩ ⟨5, 1⟩
    (by decide) (by decide) (by decide) (by decide)

theorem get_set_disjoint_refs_witness :
    (getSetRefs sampleKeys).card = sampleKeys.card ∧
    readRef (writeRef samplePool (⟨0, 1⟩ : PoolKey Nat).slot_id 99)
        (⟨1, 1⟩ : PoolKey Nat).slot_id
      = readRef samplePool (⟨1, 1⟩ : PoolKey Nat).slot_id ∧
    samplePool = samplePool :=
  get_set_disjoint_refs samplePool sampleKeys ⟨0, 1⟩ ⟨1, 1⟩ 99
    (getSetRefs sampleKeys) samplePool
    (by decide) (by decide) (by decide) (by decide) (by decide) (by decide)

theorem owns_key_identity_scoped_witness :
    otherPool.owns_key ⟨0, 1⟩ = false ∧
    (otherPool.owns_key ⟨7, 2⟩ = true ↔
      (⟨7, 2⟩ : PoolKey Nat).pool_identity = otherPool.identity) ∧
    emptyPool.owns_key ⟨7, 2⟩ = insertedPool.owns_key ⟨7, 2⟩ :=
  owns_key_identity_scoped emptyPool otherPool insertedPool emptyPool insertedPool 5
    ⟨0, 1⟩ ⟨7, 2⟩ (by decide) (by rfl) (by rfl)

theorem insert_capacity_exact_witness :
    ((samplePool.insert 7).isOk = false ↔ samplePool.len = USIZE_MAX) ∧
    (samplePool.len < USIZE_MAX → (samplePool.insert 7).isOk = true) ∧
    (samplePool.insert 7 = Except.error emptyPool → emptyPool = samplePool) :=
  insert_capacity_exact samplePool 7 emptyPool (by decide)

theorem insert_first_free_from_hint_witness :
    (⟨2, 1⟩ : PoolKey Nat).slot_id ∉ samplePool.pool ∧
    (∃ n, n < USIZE_SIZE ∧
      (⟨2, 1⟩ : PoolKey Nat).slot_id = (samplePool.next_id + n) % USIZE_SIZE ∧
      ∀ m, m < n → ((samplePool.next_id + m) % USIZE_SIZE) ∈ samplePool.pool) ∧
    samplePoolIns.pool.lookup (⟨2, 1⟩ : PoolKey Nat).slot_id = some 7 ∧
    samplePoolIns.next_id = ((⟨2, 1⟩ : PoolKey Nat).slot_id + 1) % USIZE_SIZE :=
  insert_first_free_from_hint samplePool 7 ⟨2, 1⟩ samplePoolIns (by decide) (by rfl)

theorem insert_sequence_distinct_roundtrip_witness :
    ([⟨0, 1⟩, ⟨1, 1⟩] : List (PoolKey Nat)).Nodup ∧
    ([⟨0, 1⟩, ⟨1, 1⟩] : List (PoolKey Nat)).length = ([4, 2] : List Nat).length ∧
    ([⟨0, 1⟩, ⟨1, 1⟩] : List (PoolKey Nat))[0]?.bind samplePool.index
      = ([4, 2] : List Nat)[0]? :=
  insert_sequence_distinct_roundtrip emptyPool [4, 2] [⟨0, 1⟩, ⟨1, 1⟩] samplePool 0
    (by decide) (by rfl) (by decide) (by decide)

theorem index_requires_valid_key_witness :
    (samplePool.index ⟨0, 1⟩ = none ↔
      (samplePool.owns_key ⟨0, 1⟩ = false ∨
        samplePool.pool.lookup (⟨0, 1⟩ : PoolKey Nat).slot_id = none)) ∧
    (samplePool.index_set ⟨0, 1⟩ 9 = none ↔
      (samplePool.owns_key ⟨0, 1⟩ = false ∨
        samplePool.pool.lookup (⟨0, 1⟩ : PoolKey Nat).slot_id = none)) ∧
    samplePoolRem.contains_key ⟨0, 1⟩ = false ∧
    samplePoolRem.index ⟨0, 1⟩ = none ∧
    samplePoolRem.index_set ⟨0, 1⟩ 9 = none ∧
    samplePoolRem.get_set {⟨0, 1⟩} = none :=
  index_requires_valid_key samplePool ⟨0, 1⟩ 9 samplePool ⟨0, 1⟩ (some 4) samplePoolRem
    (by rfl)

theorem insert_remove_frame_witness :
    samplePool.pool.lookup (⟨2, 1⟩ : PoolKey Nat).slot_id = none ∧
    samplePoolIns.pool.lookup (⟨2, 1⟩ : PoolKey Nat).slot_id = some 7 ∧
    ((5 : Nat) ≠ (⟨2, 1⟩ : PoolKey Nat).slot_id →
      samplePoolIns.pool.lookup 5 = samplePool.pool.lookup 5) ∧
    samplePoolIns.len = samplePool.len + 1 ∧
    samplePoolRem.pool.lookup (⟨0, 1⟩ : PoolKey Nat).slot_id = none ∧
    ((5 : Nat) ≠ (⟨0, 1⟩ : PoolKey Nat).slot_id →
      samplePoolRem.pool.lookup 5 = samplePool.pool.lookup 5) ∧
    ((some 4 : Option Nat).isSome = true → samplePool.len = samplePoolRem.len + 1) ∧
    ((some 4 : Option Nat) = none → samplePoolRem.len = samplePool.len) :=
  insert_remove_frame samplePool 7 ⟨2, 1⟩ samplePoolIns samplePool ⟨0, 1⟩ (some 4)
    samplePoolRem 5 (by rfl) (by rfl)
